import Mathlib

/-!
# Verification of the QuaTenNet tensor-contraction core

This file embeds the tensor-contraction pipeline of the repository
(`src/tendot.rs`, `src/trace.rs`, `src/tencon.rs`) as executable Lean
definitions and proves properties of the embedding.

Modelling conventions:

* `ArrayD<f64>` becomes `Tensor`: a row-major flat list of values together
  with a shape.  Numeric values are modelled in exact rational arithmetic
  (`ℚ`); the Rust code performs only additions, multiplications and (in the
  planner) divisions on these quantities.
* A Rust function that can panic (out-of-bounds `Vec` indexing, a failed
  `unwrap`/`expect`, `ndarray::permuted_axes` on a non-permutation) is
  modelled with result type `Option _`, `none` standing for the panic;
  a `Result<T, String>` becomes `Except String _` inside the `Option`.
* Iteration over a `HashMap`/`HashSet` has an unspecified order in Rust;
  the embedding fixes the canonical first-occurrence order.  Every fact
  proved below about such code is order-insensitive (error existence,
  membership, or values that are invariant under the iteration order).
-/

/-- Row-major flattening of a multi-index `idx` for dimensions `shape`. -/
def flatten : List Nat → List Nat → Nat
  | _, [] => 0
  | [], _ => 0
  | _ :: ss, i :: is => i * ss.prod + flatten ss is

/-- Inverse of `flatten`: split a flat position into a row-major multi-index. -/
def unflatten : List Nat → Nat → List Nat
  | [], _ => []
  | _ :: ss, p => (p / ss.prod) :: unflatten ss (p % ss.prod)

/-- Predicate `validIdx shape idx`: the multi-index is componentwise within bounds. -/
def validIdx (shape idx : List Nat) : Prop := List.Forall₂ (· < ·) idx shape

/-- A dense tensor: shape and row-major data. -/
structure Tensor where
  shape : List Nat
  data : List ℚ
deriving DecidableEq, Repr

deriving instance DecidableEq for Except

/-- Number of axes of a tensor. -/
def Tensor.rank (t : Tensor) : Nat := t.shape.length

/-- Value of a tensor at a multi-index (0 outside the stored range). -/
def tensorGet (t : Tensor) (idx : List Nat) : ℚ :=
  t.data.getD (flatten t.shape idx) 0

/-- Predicate `permOK p n`: `p` lists each axis `0 ≤ a < n` exactly once
(the condition under which `ndarray::permuted_axes` does not panic). -/
def permOK (p : List Nat) (n : Nat) : Bool :=
  p.length == n && (List.range n).all (fun a => p.count a == 1)

/-- The source multi-index corresponding to destination multi-index `idx`
under axis permutation `p` (destination axis `k` is source axis `p[k]`). -/
def invIdx (p : List Nat) (idx : List Nat) : List Nat :=
  (List.range p.length).map (fun a => idx.getD (p.indexOf a) 0)

/-- Models `t.view().permuted_axes(IxDyn(&p))` followed by a materialisation
in standard (row-major) order, as `ndarray`'s `to_shape` performs on a
permuted view.  Panics (`none`) when `p` is not a permutation of the axes. -/
def permute (t : Tensor) (p : List Nat) : Option Tensor :=
  if permOK p t.rank then
    let newShape := p.map (fun a => t.shape.getD a 0)
    some { shape := newShape
           data := (List.range newShape.prod).map
             (fun q => t.data.getD (flatten t.shape (invIdx p (unflatten newShape q))) 0) }
  else none

/-- Models `to_shape` on a standard-order tensor: relabel the shape when the
element counts agree, panic (`none`) otherwise. -/
def to_shape (t : Tensor) (s : List Nat) : Option Tensor :=
  if s.prod = t.data.length then some { shape := s, data := t.data } else none

section BasicLemmas

theorem unflatten_length (shape : List Nat) (p : Nat) :
    (unflatten shape p).length = shape.length := by
  induction shape generalizing p with
  | nil => rfl
  | cons s ss ih => simp [unflatten, ih]

theorem flatten_lt {shape idx : List Nat} (h : validIdx shape idx) :
    flatten shape idx < shape.prod := by
  induction h with
  | nil => simp [flatten]
  | @cons i s is ss hlt htl ih =>
    simp only [flatten, List.prod_cons]
    calc i * ss.prod + flatten ss is < i * ss.prod + ss.prod := by omega
    _ = (i + 1) * ss.prod := by ring
    _ ≤ s * ss.prod := Nat.mul_le_mul_right _ hlt

theorem unflatten_valid {shape : List Nat} {p : Nat} (h : p < shape.prod) :
    validIdx shape (unflatten shape p) := by
  induction shape generalizing p with
  | nil => exact List.Forall₂.nil
  | cons s ss ih =>
    have hpos : 0 < ss.prod := by
      rcases Nat.eq_zero_or_pos ss.prod with h0 | h0
      · rw [List.prod_cons, h0, Nat.mul_zero] at h; omega
      · exact h0
    simp only [unflatten]
    refine List.Forall₂.cons ?_ (ih (Nat.mod_lt _ hpos))
    have hs : p < ss.prod * s := by rw [List.prod_cons, Nat.mul_comm] at h; exact h
    exact Nat.div_lt_of_lt_mul hs

theorem flatten_unflatten {shape : List Nat} {p : Nat} (h : p < shape.prod) :
    flatten shape (unflatten shape p) = p := by
  induction shape generalizing p with
  | nil =>
    simp only [List.prod_nil] at h
    simp only [unflatten, flatten]
    omega
  | cons s ss ih =>
    have hpos : 0 < ss.prod := by
      rcases Nat.eq_zero_or_pos ss.prod with h0 | h0
      · rw [List.prod_cons, h0, Nat.mul_zero] at h; omega
      · exact h0
    simp only [unflatten, flatten]
    rw [ih (Nat.mod_lt _ hpos), Nat.mul_comm (p / ss.prod) ss.prod]
    exact Nat.div_add_mod p ss.prod

theorem unflatten_flatten {shape idx : List Nat} (h : validIdx shape idx) :
    unflatten shape (flatten shape idx) = idx := by
  induction h with
  | nil => rfl
  | @cons i s is ss hlt htl ih =>
    have hrest : flatten ss is < ss.prod := flatten_lt htl
    have hpos : 0 < ss.prod := by omega
    simp only [flatten, unflatten]
    have he : i * ss.prod + flatten ss is = flatten ss is + ss.prod * i := by ring
    rw [he, Nat.add_mul_div_left _ _ hpos, Nat.add_mul_mod_self_left,
        Nat.div_eq_of_lt hrest, Nat.mod_eq_of_lt hrest, ih]
    simp

theorem flatten_append {s₁ s₂ i₁ i₂ : List Nat} (h : i₁.length = s₁.length) :
    flatten (s₁ ++ s₂) (i₁ ++ i₂) = flatten s₁ i₁ * s₂.prod + flatten s₂ i₂ := by
  induction s₁ generalizing i₁ with
  | nil =>
    have : i₁ = [] := List.length_eq_zero.mp (by simpa using h)
    subst this
    simp [flatten]
  | cons s ss ih =>
    cases i₁ with
    | nil => simp at h
    | cons i is =>
      simp only [List.length_cons, Nat.succ_inj'] at h
      simp only [List.cons_append, flatten, List.append_eq, List.prod_append, ih h]
      ring

theorem unflatten_append {s₁ s₂ : List Nat} {m k : Nat}
    (hm : m < s₁.prod) (hk : k < s₂.prod) :
    unflatten (s₁ ++ s₂) (m * s₂.prod + k) = unflatten s₁ m ++ unflatten s₂ k := by
  induction s₁ generalizing m with
  | nil =>
    simp only [List.prod_nil] at hm
    have : m = 0 := by omega
    subst this
    simp [unflatten]
  | cons s ss ih =>
    have hpos : 0 < ss.prod := by
      rcases Nat.eq_zero_or_pos ss.prod with h0 | h0
      · rw [List.prod_cons, h0, Nat.mul_zero] at hm; omega
      · exact h0
    have hp2 : 0 < s₂.prod := by omega
    simp only [List.cons_append, unflatten, List.append_eq, List.prod_append]
    have hmod : m % ss.prod < ss.prod := Nat.mod_lt _ hpos
    have e1 : m * s₂.prod + k
        = (m % ss.prod * s₂.prod + k) + (ss.prod * s₂.prod) * (m / ss.prod) := by
      conv_lhs => rw [← Nat.div_add_mod m ss.prod]
      ring
    have hsmall : m % ss.prod * s₂.prod + k < ss.prod * s₂.prod := by
      calc m % ss.prod * s₂.prod + k < m % ss.prod * s₂.prod + s₂.prod := by omega
      _ = (m % ss.prod + 1) * s₂.prod := by ring
      _ ≤ ss.prod * s₂.prod := Nat.mul_le_mul_right _ hmod
    congr 1
    · rw [e1, Nat.add_mul_div_left _ _ (by positivity), Nat.div_eq_of_lt hsmall,
        Nat.zero_add]
    · rw [e1, Nat.add_mul_mod_self_left, Nat.mod_eq_of_lt hsmall, ih hmod]

theorem validIdx_append {s₁ s₂ i₁ i₂ : List Nat}
    (h₁ : validIdx s₁ i₁) (h₂ : validIdx s₂ i₂) : validIdx (s₁ ++ s₂) (i₁ ++ i₂) :=
  List.rel_append h₁ h₂

end BasicLemmas

/-- Axes of a rank-`n` tensor not named in `axes`, in their original relative
order (the Rust `(0..ndim).filter(|&k| !axes.contains(&k))`). -/
def notinAxes (n : Nat) (axes : List Nat) : List Nat :=
  (List.range n).filter (fun k => !(axes.contains k))

/-- Reference assembly of a full multi-index from spec language: the
contracted components `conIdx` are placed at the positions named in `axes`
(in their listed order) and the free components `freeIdx` fill the remaining
positions in original relative order. -/
def mergeIdx (n : Nat) (axes : List Nat) (conIdx freeIdx : List Nat) : List Nat :=
  (List.range n).map (fun ax =>
    if axes.contains ax then conIdx.getD (axes.indexOf ax) 0
    else freeIdx.getD ((notinAxes n axes).indexOf ax) 0)


section PermLemmas

theorem getD_range_map {α : Type} (f : Nat → α) (N q : Nat) (d : α) (h : q < N) :
    ((List.range N).map f).getD q d = f q := by
  rw [List.getD_eq_getElem _ _ (by simpa using h)]
  simp

theorem map_getD_range {α : Type} (l : List α) (d : α) :
    (List.range l.length).map (fun a => l.getD a d) = l := by
  refine List.ext_getElem (by simp) ?_
  intro i h1 h2
  simp only [List.getElem_map, List.getElem_range]
  exact List.getD_eq_getElem l d h2

theorem perm_of_nodup_mem_iff {l₁ l₂ : List Nat} (h₁ : l₁.Nodup) (h₂ : l₂.Nodup)
    (h : ∀ a, a ∈ l₁ ↔ a ∈ l₂) : l₁.Perm l₂ := by
  rw [List.perm_iff_count]
  intro a
  by_cases hm : a ∈ l₁
  · rw [List.count_eq_one_of_mem h₁ hm, List.count_eq_one_of_mem h₂ ((h a).mp hm)]
  · rw [List.count_eq_zero_of_not_mem hm,
      List.count_eq_zero_of_not_mem (fun c => hm ((h a).mpr c))]

theorem notin_append_axes_perm {n : Nat} {axes : List Nat}
    (hax : ∀ x ∈ axes, x < n) (hnd : axes.Nodup) :
    (notinAxes n axes ++ axes).Perm (List.range n) := by
  have h2 : ((List.range n).filter (fun x => !(!(axes.contains x)))).Perm axes := by
    apply perm_of_nodup_mem_iff (List.Nodup.filter _ (List.nodup_range n)) hnd
    intro a
    simp only [List.mem_filter, List.mem_range]
    constructor
    · intro ha
      have := ha.2
      simpa using this
    · intro ha
      exact ⟨hax a ha, by simpa using ha⟩
  have h1 := List.filter_append_perm (fun k => !(axes.contains k)) (List.range n)
  refine (List.Perm.append_left (notinAxes n axes) h2.symm).trans ?_
  unfold notinAxes
  exact h1

theorem axes_append_notin_perm {n : Nat} {axes : List Nat}
    (hax : ∀ x ∈ axes, x < n) (hnd : axes.Nodup) :
    (axes ++ notinAxes n axes).Perm (List.range n) :=
  (List.perm_append_comm).trans (notin_append_axes_perm hax hnd)

theorem permOK_of_perm {p : List Nat} {n : Nat} (h : p.Perm (List.range n)) :
    permOK p n = true := by
  unfold permOK
  refine (Bool.and_eq_true _ _).mpr ⟨?_, ?_⟩
  · have := h.length_eq
    simpa using this
  · rw [List.all_eq_true]
    intro a ha
    have hc : p.count a = (List.range n).count a := List.Perm.count_eq h a
    rw [List.mem_range] at ha
    have : (List.range n).count a = 1 :=
      List.count_eq_one_of_mem (List.nodup_range n) (List.mem_range.mpr ha)
    simp [hc, this]

theorem perm_map_prod {p : List Nat} {shape : List Nat}
    (h : p.Perm (List.range shape.length)) :
    (p.map (fun a => shape.getD a 0)).prod = shape.prod := by
  have h1 : (p.map (fun a => shape.getD a 0)).Perm
      ((List.range shape.length).map (fun a => shape.getD a 0)) := List.Perm.map _ h
  rw [List.Perm.prod_eq h1, map_getD_range]

end PermLemmas

section MergeIdxLemmas

theorem mem_notinAxes {n ax : Nat} {axes : List Nat} :
    ax ∈ notinAxes n axes ↔ ax < n ∧ ax ∉ axes := by
  unfold notinAxes
  simp [List.mem_filter]

theorem invIdx_notin_axes {n : Nat} {axes fIdx cIdx : List Nat}
    (hlen : (notinAxes n axes ++ axes).length = n)
    (hf : fIdx.length = (notinAxes n axes).length) :
    invIdx (notinAxes n axes ++ axes) (fIdx ++ cIdx) = mergeIdx n axes cIdx fIdx := by
  unfold invIdx mergeIdx
  rw [hlen]
  apply List.map_congr_left
  intro ax hmem
  rw [List.mem_range] at hmem
  by_cases hc : axes.contains ax
  · have hmemax : ax ∈ axes := by simpa using hc
    have hnot : ax ∉ notinAxes n axes := by
      rw [mem_notinAxes]
      intro hx
      exact hx.2 hmemax
    rw [List.indexOf_append_of_not_mem hnot]
    rw [List.getD_append_right _ _ _ _ (by omega)]
    rw [if_pos hc]
    congr 1
    omega
  · have hmemnot : ax ∈ notinAxes n axes :=
      mem_notinAxes.mpr ⟨hmem, fun hx => hc (by simpa using hx)⟩
    rw [List.indexOf_append_of_mem hmemnot]
    rw [List.getD_append _ _ _ _ (by rw [hf]; exact List.indexOf_lt_length.mpr hmemnot)]
    rw [if_neg hc]

theorem invIdx_axes_notin {n : Nat} {axes fIdx cIdx : List Nat}
    (hlen : (axes ++ notinAxes n axes).length = n)
    (hc : cIdx.length = axes.length) :
    invIdx (axes ++ notinAxes n axes) (cIdx ++ fIdx) = mergeIdx n axes cIdx fIdx := by
  unfold invIdx mergeIdx
  rw [hlen]
  apply List.map_congr_left
  intro ax hmem
  rw [List.mem_range] at hmem
  by_cases hcc : axes.contains ax
  · have hmemax : ax ∈ axes := by simpa using hcc
    rw [List.indexOf_append_of_mem hmemax]
    rw [List.getD_append _ _ _ _ (by rw [hc]; exact List.indexOf_lt_length.mpr hmemax)]
    rw [if_pos hcc]
  · have hnotax : ax ∉ axes := fun hx => hcc (by simpa using hx)
    have hmemnot : ax ∈ notinAxes n axes := mem_notinAxes.mpr ⟨hmem, hnotax⟩
    rw [List.indexOf_append_of_not_mem hnotax]
    rw [List.getD_append_right _ _ _ _ (by omega)]
    rw [if_neg hcc]
    congr 1
    omega

end MergeIdxLemmas

/-- Outcome of the axis compatibility scan at the top of `tensor_dot`:
an out-of-range axis position panics on slice indexing, a size mismatch
produces the `Err` string, otherwise the scan passes. -/
inductive AxesCheck where
  | axisPanic
  | mismatch (msg : String)
  | passed
deriving DecidableEq, Repr

/-- Models the `for k in 0..axes_a.len()` compatibility loop of `tensor_dot`:
`ash[axes_a[k]]` and `bsh[axes_b[k]]` panic when the position is out of
range, and unequal sizes yield the shape-mismatch error. -/
def axesCheck (ash bsh : List Nat) : List Nat → List Nat → AxesCheck
  | xa :: ra, xb :: rb =>
    if ash.length ≤ xa then AxesCheck.axisPanic
    else if bsh.length ≤ xb then AxesCheck.axisPanic
    else if ash.getD xa 0 ≠ bsh.getD xb 0 then
      AxesCheck.mismatch
        ("Shape mismatch along specified axes: a[" ++ toString xa ++ "] = "
          ++ toString (ash.getD xa 0) ++ ", b[" ++ toString xb ++ "] = "
          ++ toString (bsh.getD xb 0))
    else axesCheck ash bsh ra rb
  | _, _ => AxesCheck.passed

/-- Row-major matrix product of an `m × k` and a `k × n` flat matrix. -/
def matmulData (m k n : Nat) (A B : List ℚ) : List ℚ :=
  (List.range (m * n)).map (fun p =>
    ((List.range k).map (fun t => A.getD (p / n * k + t) 0 * B.getD (t * n + p % n) 0)).sum)

/-- Embedding of `tensor_dot` (src/tendot.rs): contract tensors `a` and `b`
over the axis pairs listed flat in `axis_vec` (first half: positions in `a`;
second half: matched positions in `b`) via permute→reshape→matmul→reshape. -/
def tensor_dot (a b : Tensor) (axis_vec : List Nat) : Option (Except String Tensor) :=
  if axis_vec.length % 2 ≠ 0 then
    some (Except.error "Axis length is not even number!")
  else
    let axes_a := axis_vec.take (axis_vec.length / 2)
    let axes_b := axis_vec.drop (axis_vec.length / 2)
    let ash := a.shape
    let bsh := b.shape
    match axesCheck ash bsh axes_a axes_b with
    | AxesCheck.axisPanic => none
    | AxesCheck.mismatch msg => some (Except.error msg)
    | AxesCheck.passed =>
      let notin_a := notinAxes a.rank axes_a
      let a_mpl_linked := (axes_a.map (fun ndx => ash.getD ndx 0)).prod
      let a_mpl_unlinked := (notin_a.map (fun ndx => ash.getD ndx 0)).prod
      let newaxes_a := notin_a ++ axes_a
      let notin_b := notinAxes b.rank axes_b
      let b_mpl_linked := (axes_b.map (fun ndx => bsh.getD ndx 0)).prod
      let b_mpl_unlinked := (notin_b.map (fun ndx => bsh.getD ndx 0)).prod
      let newaxes_b := axes_b ++ notin_b
      match permute a newaxes_a, permute b newaxes_b with
      | some ap, some bp =>
        match to_shape ap [a_mpl_unlinked, a_mpl_linked],
              to_shape bp [b_mpl_linked, b_mpl_unlinked] with
        | some a2, some b2 =>
          if a_mpl_linked = b_mpl_linked then
            let res := matmulData a_mpl_unlinked a_mpl_linked b_mpl_unlinked a2.data b2.data
            let old_a := notin_a.map (fun ndx => ash.getD ndx 0)
            let old_b := notin_b.map (fun ndx => bsh.getD ndx 0)
            match to_shape { shape := [a_mpl_unlinked, b_mpl_unlinked], data := res }
                (old_a ++ old_b) with
            | some out => some (Except.ok out)
            | none => none
          else none
        | _, _ => none
      | _, _ => none

/-- Reference tensor for the specified behaviour of `tensor_dot`: the shape
is the free axes' sizes of `a` (original relative order) followed by the free
axes' sizes of `b`, and every entry is the sum over all assignments of the
contracted axes of the product of the matching entries of `a` and `b`. -/
def einsumTensor (a b : Tensor) (axesA axesB : List Nat) : Tensor :=
  let freeA := notinAxes a.rank axesA
  let freeB := notinAxes b.rank axesB
  let shA := freeA.map (fun k => a.shape.getD k 0)
  let shB := freeB.map (fun k => b.shape.getD k 0)
  let conSh := axesA.map (fun k => a.shape.getD k 0)
  { shape := shA ++ shB
    data := (List.range (shA.prod * shB.prod)).map (fun p =>
      ((List.range conSh.prod).map (fun k =>
        tensorGet a (mergeIdx a.rank axesA (unflatten conSh k) (unflatten shA (p / shB.prod)))
        * tensorGet b (mergeIdx b.rank axesB (unflatten conSh k)
            (unflatten shB (p % shB.prod))))).sum) }

section TendotProof

theorem axesCheck_passed {ash bsh : List Nat} {xs ys : List Nat}
    (hsz : List.Forall₂ (fun x y => ash.getD x 0 = bsh.getD y 0) xs ys)
    (hx : ∀ x ∈ xs, x < ash.length) (hy : ∀ y ∈ ys, y < bsh.length) :
    axesCheck ash bsh xs ys = AxesCheck.passed := by
  induction hsz with
  | nil => rfl
  | @cons x y txs tys hxy htl ih =>
    have h1 : x < ash.length := hx x (List.mem_cons_self _ _)
    have h2 : y < bsh.length := hy y (List.mem_cons_self _ _)
    simp only [axesCheck]
    rw [if_neg (by omega), if_neg (by omega), if_neg (by simpa using hxy)]
    exact ih (fun z hz => hx z (List.mem_cons_of_mem _ hz))
      (fun z hz => hy z (List.mem_cons_of_mem _ hz))

theorem forall₂_map_eq {xs ys : List Nat} {f g : Nat → Nat}
    (h : List.Forall₂ (fun x y => f x = g y) xs ys) : xs.map f = ys.map g := by
  induction h with
  | nil => rfl
  | cons hxy _ ih => simp [ih, hxy]

theorem permute_eq_of_permOK {t : Tensor} {p : List Nat} (h : permOK p t.rank = true) :
    permute t p = some ⟨p.map (fun a => t.shape.getD a 0),
      (List.range (p.map (fun a => t.shape.getD a 0)).prod).map
        (fun q => t.data.getD
          (flatten t.shape (invIdx p (unflatten (p.map (fun a => t.shape.getD a 0)) q))) 0)⟩ := by
  simp [permute, h]

theorem to_shape_eq {t : Tensor} {s : List Nat} (h : s.prod = t.data.length) :
    to_shape t s = some ⟨s, t.data⟩ := by
  simp [to_shape, h]

theorem to_shape_range_map {sh s : List Nat} {f : Nat → ℚ} (h : s.prod = sh.prod) :
    to_shape ⟨sh, (List.range sh.prod).map f⟩ s = some ⟨s, (List.range sh.prod).map f⟩ := by
  apply to_shape_eq
  simp [h]

theorem to_shape_map_range {s : List Nat} {R : Nat} {f : Nat → ℚ} (h : s.prod = R) :
    to_shape ⟨[R], (List.range R).map f⟩ s = some ⟨s, (List.range R).map f⟩ := by
  apply to_shape_eq
  simp [h]

theorem matmulData_length (m k n : Nat) (A B : List ℚ) :
    (matmulData m k n A B).length = m * n := by
  simp [matmulData]

theorem mul_index_lt {i j I J : Nat} (hi : i < I) (hj : j < J) : i * J + j < I * J :=
  calc i * J + j < i * J + J := by omega
  _ = (i + 1) * J := by ring
  _ ≤ I * J := Nat.mul_le_mul_right _ hi

/-- Claim C2 (amended with pairwise-distinct axis positions in each half):
under the stated validity conditions `tensor_dot` succeeds and returns
exactly the sum-of-products contraction described by `einsumTensor`. -/
theorem tensor_dot_einsum (a b : Tensor) (axesA axesB : List Nat)
    (hlen : axesA.length = axesB.length)
    (hna : axesA.Nodup) (hnb : axesB.Nodup)
    (hina : ∀ x ∈ axesA, x < a.rank) (hinb : ∀ y ∈ axesB, y < b.rank)
    (hsz : List.Forall₂ (fun x y => a.shape.getD x 0 = b.shape.getD y 0) axesA axesB) :
    tensor_dot a b (axesA ++ axesB) = some (Except.ok (einsumTensor a b axesA axesB)) := by
  have hv2 : (axesA ++ axesB).length % 2 = 0 := by rw [List.length_append]; omega
  have hhalf : (axesA ++ axesB).length / 2 = axesA.length := by rw [List.length_append]; omega
  have htake : (axesA ++ axesB).take ((axesA ++ axesB).length / 2) = axesA := by
    rw [hhalf]; exact List.take_left _ _
  have hdrop : (axesA ++ axesB).drop ((axesA ++ axesB).length / 2) = axesB := by
    rw [hhalf]; exact List.drop_left _ _
  have hpermA : (notinAxes a.rank axesA ++ axesA).Perm (List.range a.rank) :=
    notin_append_axes_perm hina hna
  have hpermB : (axesB ++ notinAxes b.rank axesB).Perm (List.range b.rank) :=
    axes_append_notin_perm hinb hnb
  have hOKA : permOK (notinAxes a.rank axesA ++ axesA) a.rank = true := permOK_of_perm hpermA
  have hOKB : permOK (axesB ++ notinAxes b.rank axesB) b.rank = true := permOK_of_perm hpermB
  have hconEq : axesA.map (fun k => a.shape.getD k 0) = axesB.map (fun k => b.shape.getD k 0) :=
    forall₂_map_eq hsz
  simp only [tensor_dot, htake, hdrop, axesCheck_passed hsz hina hinb,
    permute_eq_of_permOK hOKA, permute_eq_of_permOK hOKB]
  rw [if_neg (by omega : ¬ (axesA ++ axesB).length % 2 ≠ 0)]
  simp only [to_shape_eq, hconEq, List.length_map, List.length_range, List.map_append,
    List.prod_append, List.prod_cons, List.prod_nil, mul_one, matmulData_length, if_true,
    eq_self_iff_true]
  simp only [einsumTensor, hconEq, Option.some.injEq, Except.ok.injEq, Tensor.mk.injEq]
  refine ⟨trivial, ?_⟩
  have hlenA : (notinAxes a.rank axesA ++ axesA).length = a.rank := by
    have := hpermA.length_eq
    simpa using this
  have hlenB : (axesB ++ notinAxes b.rank axesB).length = b.rank := by
    have := hpermB.length_eq
    simpa using this
  unfold matmulData
  apply List.map_congr_left
  intro p hp
  rw [List.mem_range] at hp
  have hN : 0 < (List.map (fun k => b.shape.getD k 0) (notinAxes b.rank axesB)).prod := by
    rcases Nat.eq_zero_or_pos
      (List.map (fun k => b.shape.getD k 0) (notinAxes b.rank axesB)).prod with h0 | h0
    · rw [h0, Nat.mul_zero] at hp; omega
    · exact h0
  have hp' : p < (List.map (fun k => b.shape.getD k 0) (notinAxes b.rank axesB)).prod *
      (List.map (fun a_1 => a.shape.getD a_1 0) (notinAxes a.rank axesA)).prod := by
    rw [Nat.mul_comm]; exact hp
  have hpN : p / (List.map (fun k => b.shape.getD k 0) (notinAxes b.rank axesB)).prod <
      (List.map (fun a_1 => a.shape.getD a_1 0) (notinAxes a.rank axesA)).prod :=
    Nat.div_lt_of_lt_mul hp'
  have hpMod : p % (List.map (fun k => b.shape.getD k 0) (notinAxes b.rank axesB)).prod <
      (List.map (fun k => b.shape.getD k 0) (notinAxes b.rank axesB)).prod :=
    Nat.mod_lt _ hN
  apply congrArg List.sum
  apply List.map_congr_left
  intro t ht
  rw [List.mem_range] at ht
  rw [getD_range_map _ _ _ _ (mul_index_lt hpN ht)]
  rw [getD_range_map _ _ _ _ (mul_index_lt ht hpMod)]
  rw [unflatten_append hpN ht, unflatten_append ht hpMod]
  rw [invIdx_notin_axes hlenA
    (by rw [unflatten_length, List.length_map])]
  rw [invIdx_axes_notin hlenB
    (by rw [unflatten_length, List.length_map])]
  simp only [tensorGet]

end TendotProof

/-- Pointwise sum of two equal-length vectors (ndarray `&result + &slice`). -/
def addVec (x y : List ℚ) : List ℚ := List.zipWith (· + ·) x y

/-- Embedding of `trace` (src/trace.rs): sum the diagonal of two equal-sized
axes of one tensor.  The two `Err` strings mirror the source; indexing
`t_shape[axes[0]]` / `t_shape[axes[1]]` with an out-of-range axis position
panics (`none`), as does `permuted_axes` on a repeated axis. -/
def trace (tensor : Tensor) (axes : List Nat) : Option (Except String Tensor) :=
  if axes.length ≠ 2 then
    some (Except.error ("Trace calculation need two axes index. (Axes length is "
      ++ toString axes.length ++ "!)"))
  else
    let t_shape := tensor.shape
    let a0 := axes.getD 0 0
    let a1 := axes.getD 1 0
    if t_shape.length ≤ a0 then none
    else if t_shape.length ≤ a1 then none
    else if t_shape.getD a0 0 ≠ t_shape.getD a1 0 then
      some (Except.error ("Shape mismatch along specified axes: tenosr[" ++ toString a0
        ++ "] = " ++ toString (t_shape.getD a0 0) ++ ", tensor[" ++ toString a1 ++ "] = "
        ++ toString (t_shape.getD a1 0)))
    else
      let notin := notinAxes tensor.rank axes
      let notin_shape := notin.map (fun ndx => t_shape.getD ndx 0)
      let r_dim := notin_shape.prod
      let new_arrange := axes ++ notin
      match permute tensor new_arrange with
      | none => none
      | some tp =>
        match to_shape tp [t_shape.getD a0 0, t_shape.getD a0 0, r_dim] with
        | none => none
        | some tpr =>
          let s := t_shape.getD a0 0
          let result := (List.range s).foldl
            (fun acc i => addVec acc
              ((List.range r_dim).map (fun q => tpr.data.getD ((i * s + i) * r_dim + q) 0)))
            (List.replicate r_dim 0)
          match to_shape ⟨[r_dim], result⟩ notin_shape with
          | none => none
          | some out => some (Except.ok out)

/-- Reference tensor for the specified behaviour of `trace`: the traced axes
are removed (remaining axes keep their original relative order and sizes) and
each entry is the sum over the diagonal of the two traced axes. -/
def traceRef (t : Tensor) (a0 a1 : Nat) : Tensor :=
  let notin := notinAxes t.rank [a0, a1]
  let notin_shape := notin.map (fun ndx => t.shape.getD ndx 0)
  let s := t.shape.getD a0 0
  ⟨notin_shape, (List.range notin_shape.prod).map (fun q =>
    ((List.range s).map (fun i =>
      tensorGet t (mergeIdx t.rank [a0, a1] [i, i] (unflatten notin_shape q)))).sum)⟩

section TraceProof

theorem zipWith_map_same {α β : Type} (f g : α → β) (h : β → β → β) (l : List α) :
    List.zipWith h (l.map f) (l.map g) = l.map (fun x => h (f x) (g x)) := by
  induction l with
  | nil => rfl
  | cons x xs ih => simp [ih]

theorem foldl_addVec_sum (s R : Nat) (g : Nat → Nat → ℚ) :
    (List.range s).foldl (fun acc i => addVec acc ((List.range R).map (fun q => g i q)))
      (List.replicate R 0)
    = (List.range R).map (fun q => ((List.range s).map (fun i => g i q)).sum) := by
  induction s with
  | zero => simp [List.map_const', List.eq_replicate_iff]
  | succ n ih =>
    rw [List.range_succ, List.foldl_append, ih]
    simp only [List.foldl_cons, List.foldl_nil]
    unfold addVec
    rw [zipWith_map_same]
    apply List.map_congr_left
    intro q _
    rw [List.map_append, List.sum_append]
    simp

theorem unflatten_pair {s i : Nat} (hi : i < s) : unflatten [s, s] (i * s + i) = [i, i] := by
  have hs : 0 < s := by omega
  have h1 : (i * s + i) / s = i := by
    rw [show i * s + i = i + s * i from by ring, Nat.add_mul_div_left _ _ hs,
      Nat.div_eq_of_lt hi, Nat.zero_add]
  have h2 : (i * s + i) % s = i := by
    rw [show i * s + i = i + s * i from by ring, Nat.add_mul_mod_self_left,
      Nat.mod_eq_of_lt hi]
  simp [unflatten, h1, h2]

end TraceProof

section TraceProofMore

theorem unflatten_cons2 {s : Nat} {rest : List Nat} {i q : Nat}
    (hi : i < s) (hq : q < rest.prod) :
    unflatten (s :: s :: rest) ((i * s + i) * rest.prod + q) = i :: i :: unflatten rest q := by
  have hb : i * s + i < ([s, s] : List Nat).prod := by
    simpa using mul_index_lt hi hi
  have h := @unflatten_append [s, s] rest _ _ hb hq
  rw [unflatten_pair hi] at h
  exact h

theorem invIdx_diag {n a0 a1 : Nat} {fIdx : List Nat} {i : Nat}
    (hlen : (([a0, a1] : List Nat) ++ notinAxes n [a0, a1]).length = n) :
    invIdx ([a0, a1] ++ notinAxes n [a0, a1]) (i :: i :: fIdx)
      = mergeIdx n [a0, a1] [i, i] fIdx := by
  show invIdx ([a0, a1] ++ notinAxes n [a0, a1]) ([i, i] ++ fIdx)
      = mergeIdx n [a0, a1] [i, i] fIdx
  exact invIdx_axes_notin hlen rfl

end TraceProofMore

/-- Claim C3: for two distinct in-range axis positions of equal size, `trace`
succeeds and returns the diagonal sum described by `traceRef` (remaining axes
keep their original relative order and sizes; rank drops by two). -/
theorem trace_diag (t : Tensor) (a0 a1 : Nat) (hne : a0 ≠ a1)
    (h0 : a0 < t.rank) (h1 : a1 < t.rank)
    (hsz : t.shape.getD a0 0 = t.shape.getD a1 0) :
    trace t [a0, a1] = some (Except.ok (traceRef t a0 a1)) := by
  have h0' : a0 < t.shape.length := h0
  have h1' : a1 < t.shape.length := h1
  have hax : ∀ x ∈ ([a0, a1] : List Nat), x < t.rank := by
    intro x hx
    rcases List.mem_cons.mp hx with h | h
    · subst h; exact h0
    · rcases List.mem_cons.mp h with h' | h'
      · subst h'; exact h1
      · cases h'
  have hnd : ([a0, a1] : List Nat).Nodup := by simp [hne]
  have hperm : (([a0, a1] : List Nat) ++ notinAxes t.rank [a0, a1]).Perm (List.range t.rank) :=
    axes_append_notin_perm hax hnd
  have hOK : permOK ([a0, a1] ++ notinAxes t.rank [a0, a1]) t.rank = true := permOK_of_perm hperm
  have hlenP : (([a0, a1] : List Nat) ++ notinAxes t.rank [a0, a1]).length = t.rank := by
    have := hperm.length_eq
    simpa using this
  simp only [trace, List.getD_cons_zero, List.getD_cons_succ, List.length_cons,
    List.length_nil, permute_eq_of_permOK hOK]
  rw [if_neg (show ¬ ((0 : Nat) + 1 + 1 ≠ 2) from by omega)]
  rw [if_neg (show ¬ (t.shape.length ≤ a0) from by omega)]
  rw [if_neg (show ¬ (t.shape.length ≤ a1) from by omega)]
  rw [if_neg (show ¬ (t.shape.getD a0 0 ≠ t.shape.getD a1 0) from by omega)]
  have hcond1 : ([t.shape.getD a0 0, t.shape.getD a0 0,
      (List.map (fun a => t.shape.getD a 0) (notinAxes t.rank [a0, a1])).prod] : List Nat).prod
      = (List.map (fun a => t.shape.getD a 0) ([a0, a1] ++ notinAxes t.rank [a0, a1])).prod := by
    simp only [List.map_append, List.map_cons, List.map_nil, List.prod_append,
      List.prod_cons, List.prod_nil, ← hsz]
    ring
  simp only [to_shape_range_map hcond1]
  rw [foldl_addVec_sum]
  have hcond2 : (List.map (fun a => t.shape.getD a 0) (notinAxes t.rank [a0, a1])).prod
      = (List.map (fun a => t.shape.getD a 0) (notinAxes t.rank [a0, a1])).prod := rfl
  simp only [to_shape_map_range hcond2]
  simp only [traceRef, Option.some.injEq, Except.ok.injEq, Tensor.mk.injEq]
  refine ⟨trivial, ?_⟩
  have hshape : (List.map (fun x => t.shape.getD x 0) ([a0, a1] ++ notinAxes t.rank [a0, a1]))
      = t.shape.getD a0 0 :: t.shape.getD a0 0
        :: List.map (fun x => t.shape.getD x 0) (notinAxes t.rank [a0, a1]) := by
    simp only [List.map_append, List.map_cons, List.map_nil, ← hsz]
    rfl
  simp only [hshape]
  apply List.map_congr_left
  intro q hq
  rw [List.mem_range] at hq
  apply congrArg List.sum
  apply List.map_congr_left
  intro i hi
  rw [List.mem_range] at hi
  have hbound : (i * t.shape.getD a0 0 + i)
      * (List.map (fun x => t.shape.getD x 0) (notinAxes t.rank [a0, a1])).prod + q
      < (t.shape.getD a0 0 :: t.shape.getD a0 0
          :: List.map (fun x => t.shape.getD x 0) (notinAxes t.rank [a0, a1])).prod := by
    have := mul_index_lt (mul_index_lt hi hi) hq
    simpa [List.prod_cons, Nat.mul_assoc] using this
  rw [getD_range_map _ _ _ _ hbound]
  rw [unflatten_cons2 hi hq]
  rw [invIdx_diag hlenP]
  simp only [tensorGet]



/-- Claim C9: with an axis list of length exactly 2 in which at least one
entry is `≥` the tensor's rank, `trace` panics on shape indexing (modelled by
`none`) instead of returning an `Err`. -/
theorem trace_oob_panics (t : Tensor) (axes : List Nat) (hl : axes.length = 2)
    (h : t.rank ≤ axes.getD 0 0 ∨ t.rank ≤ axes.getD 1 0) :
    trace t axes = none := by
  simp only [trace]
  rw [if_neg (show ¬ (axes.length ≠ 2) from by omega)]
  by_cases h0 : t.shape.length ≤ axes.getD 0 0
  · rw [if_pos h0]
  · rw [if_neg h0]
    have h1 : t.shape.length ≤ axes.getD 1 0 := by
      rcases h with ha | hb
      · exact absurd ha h0
      · exact hb
    rw [if_pos h1]

/-- Worker for `dedupFirst`: emit each value not seen before, in order. -/
def dedupFirstAux (seen : List Int) : List Int → List Int
  | [] => []
  | x :: xs => if x ∈ seen then dedupFirstAux seen xs else x :: dedupFirstAux (seen ++ [x]) xs

/-- First-occurrence deduplication: the canonical iteration order this
embedding fixes for the key set of a Rust `HashMap`/`HashSet` built by
inserting the elements of a list in order. -/
def dedupFirst (l : List Int) : List Int := dedupFirstAux [] l

/-- Positions at which label `k` occurs in `order` (ascending), as collected
by the `index_map` of `trace_check`. -/
def positionsOf (order : List Int) (k : Int) : List Nat :=
  (List.range order.length).filter (fun i => order.getD i 0 == k)

/-- Remove the listed positions from a list (the positions are pairwise
distinct and ascending at every use site). -/
def removeIdxs {α : Type} (l : List α) (rem : List Nat) : List α :=
  ((List.range l.length).zip l).filterMap
    (fun p => if p.1 ∈ rem then none else some p.2)

/-- Models removing an ascending list of pairwise-distinct positions from a
`Vec` by repeated `remove` in descending order: the first (largest) removal
panics iff it is out of range, and afterwards every remaining removal is in
range, so the whole loop panics iff some listed position is out of range. -/
def removeAtDesc {α : Type} (l : List α) (rem : List Nat) : Option (List α) :=
  if rem.all (fun k => k < l.length) then some (removeIdxs l rem) else none

/-- Predicate of `indices_validation`: label `k` violates the counting rule
(a positive label must occur exactly twice, a negative one at most once). -/
def labelBad (order : List (List Int)) (k : Int) : Bool :=
  (decide (0 < k) && decide (order.flatten.count k ≠ 2))
    || (decide (k < 0) && decide (1 < order.flatten.count k))

/-- Embedding of `indices_validation` (src/tencon.rs): count every label
across all tensors and fail when a positive label does not occur exactly
twice or a negative label occurs more than once.  The `HashMap` is iterated
here in canonical first-occurrence order; which offending key is reported
depends on that order, but whether an error is returned does not. -/
def indices_validation (order : List (List Int)) : Except String Unit :=
  match (dedupFirst order.flatten).find? (labelBad order) with
  | some k =>
    if 0 < k then
      Except.error ("Index " ++ toString k
        ++ " must appear exactly twice in contraction order list.")
    else
      Except.error ("Index " ++ toString k
        ++ " must appear at most once in contraction order list.")
  | none => Except.ok ()

/-- The `orders.iter().flatten().cloned().max().unwrap_or(0)` of
`prepare_contraction_data`. -/
def maxIdx (orders : List (List Int)) : Int :=
  match orders.flatten with
  | [] => 0
  | x :: xs => xs.foldl max x

/-- Embedding of `prepare_contraction_data` (src/tencon.rs): append one
synthetic size-1 axis (with fresh label `max + i + 1`) to every tensor except
the last, and all of the matching axes/labels to the last tensor.  Panics
(`none`) when either list is empty (`last().unwrap()` / `vec![1; 0 - 1]`). -/
def prepare_contraction_data (tensors : List Tensor) (orders : List (List Int)) :
    Option (List Tensor × List (List Int)) :=
  match tensors.getLast?, orders.getLast? with
  | some tl, some ol =>
    let ten_len := tensors.length
    let extra_dims : List Nat := List.replicate (ten_len - 1) 1
    let new_tensors := (tensors.take (ten_len - 1)).map
        (fun t => (⟨t.shape ++ [1], t.data⟩ : Tensor))
      ++ [(⟨tl.shape ++ extra_dims, tl.data⟩ : Tensor)]
    let m := maxIdx orders
    let k := orders.length - 1
    let new_orders := ((List.range k).zip (orders.take k)).map
        (fun p => p.2 ++ [m + (p.1 : Int) + 1])
    let new_dims := (List.range k).map (fun (i : Nat) => m + (i : Int) + 1)
    some (new_tensors, new_orders ++ [ol ++ new_dims])
  | _, _ => none

/-- Embedding of `shape_vec` (src/tencon.rs): tensor shapes as `i32` lists. -/
def shape_vec (tensors : List Tensor) : List (List Int) :=
  tensors.map (fun t => t.shape.map (fun d => (d : Int)))

/-- Score of the planner for the pair `i < j`: the sum of the sizes (taken
from tensor `i`'s side, at the first position of each shared label) over the
shared-label list, divided by the product of the two element counts.  The
`f64` arithmetic of the source is modelled exactly in `ℚ`. -/
def pairScore (shapes orders : List (List Int)) (i j : Nat) : ℚ :=
  let oi := orders.getD i []
  let oj := orders.getD j []
  let shared := oi.filter (fun x => oj.contains x)
  let si : Int := (shapes.getD i []).prod
  let sj : Int := (shapes.getD j []).prod
  let val : ℚ := (shared.map (fun s => (((shapes.getD i []).getD (oi.indexOf s) 0 : Int) : ℚ))).sum
  val / (((si * sj : Int) : ℚ))

/-- Embedding of `ratio_matrix` (src/tencon.rs): the symmetric score matrix
(zero diagonal) and the row sums of the rows containing the global maximum.
The `f64::MIN` fold seed is modelled by `-1`; every matrix entry is a
quotient of non-negative quantities, so any negative seed is equivalent. -/
def ratio_matrix (shapes orders : List (List Int)) : (List (List ℚ) × List ℚ) :=
  let n := orders.length
  let matrix := (List.range n).map (fun i => (List.range n).map (fun j =>
    if i < j then pairScore shapes orders i j
    else if j < i then pairScore shapes orders j i
    else 0))
  let max_val := matrix.flatten.foldl max (-1 : ℚ)
  let row_sums := matrix.map (fun row =>
    if row.any (fun x => x == max_val) then row.sum else 0)
  (matrix, row_sums)

/-- Models `iter().enumerate().max_by(|a, b| a.1.partial_cmp(b.1).unwrap())`:
the accumulator is kept only when strictly greater, so among equal maxima the
LAST (largest) index wins.  Empty input gives `none` (`unwrap` panic site). -/
def argmaxLast (l : List ℚ) : Option (Nat × ℚ) :=
  l.enum.foldl
    (fun acc p =>
      match acc with
      | none => some p
      | some q => if q.2 > p.2 then some q else some p)
    none

/-- Embedding of `select_best_nodes` (src/tencon.rs): pick the row with the
maximal row sum, then the column with the maximal entry in that row. -/
def select_best_nodes (matrix : List (List ℚ)) (scores : List ℚ) : Option (Nat × Nat) :=
  match argmaxLast scores with
  | none => none
  | some (i, _) =>
    if i < matrix.length then
      match argmaxLast (matrix.getD i []) with
      | none => none
      | some (j, _) => some (i, j)
    else none

/-- Embedding of `order_to_index` (src/tencon.rs): positions of the labels
common to the two selected label orders, first in order `p.1`, then in order
`p.2`.  The `HashSet` of common labels is iterated in canonical
first-occurrence order; both inner loops use the same order, as in the
source, which fixes the pairing between the two halves. -/
def order_to_index (order_list : List (List Int)) (p : Nat × Nat) : List Nat :=
  let o1 := order_list.getD p.1 []
  let o2 := order_list.getD p.2 []
  let common := dedupFirst (o1.filter (fun x => o2.contains x))
  (common.filterMap (fun ce => o1.findIdx? (fun v => v == ce)))
    ++ (common.filterMap (fun ce => o2.findIdx? (fun v => v == ce)))

/-- One step of the merge scan of `order_reformat` (src/tencon.rs): the
state is (seen, merged, dups); a fresh value goes into both `seen` and
`merged`, a repeated value is recorded (once) in `dups`. -/
def order_merge_step (st : List Int × List Int × List Int) (v : Int) :
    List Int × List Int × List Int :=
  if v ∈ st.1 then (st.1, st.2.1, if v ∈ st.2.2 then st.2.2 else st.2.2 ++ [v])
  else (st.1 ++ [v], st.2.1 ++ [v], st.2.2)

/-- The merge scan of `order_reformat` (src/tencon.rs): keep the first
occurrence of every value of the concatenated order, collect the values seen
more than once, and finally drop those duplicated values entirely. -/
def order_merge (combined : List Int) : List Int :=
  let scan := combined.foldl order_merge_step ([], [], [])
  scan.2.1.filter (fun x => !(scan.2.2.contains x))

/-- Embedding of `order_reformat` (src/tencon.rs): merge the two label orders
into slot `p.1` and delete slot `p.2`; indexing panics out of range. -/
def order_reformat (orders : List (List Int)) (p : Nat × Nat) : Option (List (List Int)) :=
  if p.1 < orders.length ∧ p.2 < orders.length then
    let merged := order_merge (orders.getD p.1 [] ++ orders.getD p.2 [])
    some ((orders.set p.1 merged).eraseIdx p.2)
  else none

/-- One pass of the removal loop of `shape_reformat` for row `i`: drop from
the shape the positions whose label (in row `i`'s order) is common to both
selected orders; `Vec::remove` panics when a position is out of range. -/
def shape_reformat_step (orders : List (List Int)) (common : Int → Bool)
    (shapes : List (List Int)) (i : Nat) : Option (List (List Int)) :=
  if i < shapes.length ∧ i < orders.length then
    let ord := orders.getD i []
    let to_remove := (List.range ord.length).filter (fun k => common (ord.getD k 0))
    let cur := shapes.getD i []
    if to_remove.all (fun k => k < cur.length) then
      some (shapes.set i (removeIdxs cur to_remove))
    else none
  else none

/-- Embedding of `shape_reformat` (src/tencon.rs): remove the common
dimensions from both selected shape rows (sequentially, row `p.1` first),
then concatenate the remains into slot `p.1` and delete slot `p.2`. -/
def shape_reformat (shapes orders : List (List Int)) (p : Nat × Nat) :
    Option (List (List Int)) :=
  if p.1 < orders.length ∧ p.2 < orders.length then
    let o1 := orders.getD p.1 []
    let o2 := orders.getD p.2 []
    let common := fun v => o1.contains v && o2.contains v
    match shape_reformat_step orders common shapes p.1 with
    | none => none
    | some shapes1 =>
      match shape_reformat_step orders common shapes1 p.2 with
      | none => none
      | some shapes2 =>
        if p.1 < shapes2.length ∧ p.2 < shapes2.length then
          let merged := shapes2.getD p.1 [] ++ shapes2.getD p.2 []
          some ((shapes2.set p.1 merged).eraseIdx p.2)
        else none
  else none

/-- Loop body of `trace_check` (src/tencon.rs) for one key group `k`. -/
def trace_check_step (order : List Int)
    (acc : Option (Except String (Tensor × List Int))) (k : Int) :
    Option (Except String (Tensor × List Int)) :=
  match acc with
  | none => none
  | some (Except.error e) => some (Except.error e)
  | some (Except.ok (t, ord)) =>
    let idxs := positionsOf order k
    if idxs.length = 2 then
      match trace t idxs with
      | none => none
      | some (Except.error e) => some (Except.error e)
      | some (Except.ok t2) =>
        match removeAtDesc ord idxs with
        | none => none
        | some ord2 => some (Except.ok (t2, ord2))
    else some (Except.ok (t, ord))

/-- Embedding of `trace_check` (src/tencon.rs): group the positions of every
label of `order` (computed once, up front), and trace away every label whose
position list has length exactly two.  Positions recorded for later labels
are NOT recomputed after an earlier trace shrinks the tensor, exactly as in
the source; the groups are visited in canonical first-occurrence order. -/
def trace_check (tensor : Tensor) (order : List Int) :
    Option (Except String (Tensor × List Int)) :=
  (dedupFirst order).foldl (trace_check_step order)
    (some (Except.ok (tensor, order)))

/-- The greedy planning loop of `contract_map` (src/tencon.rs), with an
explicit fuel argument bounding the number of iterations (each iteration
deletes one slot, so `orders.length` fuel always suffices). -/
def contract_map_aux : Nat → List (List Int) → List (List Int) → Option (List (Nat × Nat))
  | 0, _, orders => if orders.length ≤ 1 then some [] else none
  | fuel + 1, shapes, orders =>
    if orders.length ≤ 1 then some []
    else
      let mr := ratio_matrix shapes orders
      match select_best_nodes mr.1 mr.2 with
      | none => none
      | some nodes =>
        match shape_reformat shapes orders nodes with
        | none => none
        | some shapes2 =>
          match order_reformat orders nodes with
          | none => none
          | some orders2 =>
            match contract_map_aux fuel shapes2 orders2 with
            | none => none
            | some rest => some (nodes :: rest)

/-- Embedding of the public `contract_map` (src/tencon.rs): plan greedy
pairwise contractions from the tensors' shapes and label orders, simulating
shape and label evolution without touching data.  Note: no normalization is
applied to the arguments. -/
def contract_map (tensors : List Tensor) (orders : List (List Int)) :
    Option (List (Nat × Nat)) :=
  contract_map_aux orders.length (shape_vec tensors) orders

/-- Embedding of `final_order` (src/tencon.rs): sort the surviving label
order in descending numeric order and permute the tensor's axes to match;
`order[0]` on an empty list and `permuted_axes` on a non-permutation (for
example when a label occurs twice) panic. -/
def final_order (tensor : Tensor) (order : List (List Int)) : Option Tensor :=
  match order with
  | [] => none
  | o0 :: _ =>
    let sorted := List.insertionSort (fun a b => b ≤ a) o0
    let axis_order := sorted.map (fun x => o0.indexOf x)
    permute tensor axis_order

/-- The execution loop of `contract` (src/tencon.rs): for each planned pair,
run `trace_check` on both members, contract them with `tensor_dot` over the
positions of their common labels, store the result in slot `p.1`, delete
slot `p.2`, and merge the label orders; at the end, reorder the single
remaining tensor.  All `Vec` indexing panics are modelled by `none`. -/
def contract_loop : List (Nat × Nat) → List Tensor → List (List Int) →
    Option (Except String Tensor)
  | [], tens, orders =>
    match tens with
    | [] => none
    | t :: _ =>
      match final_order t orders with
      | none => none
      | some out => some (Except.ok out)
  | (p0, p1) :: rest, tens, orders =>
    if p0 < tens.length ∧ p0 < orders.length then
      match trace_check (tens.getD p0 ⟨[], []⟩) (orders.getD p0 []) with
      | none => none
      | some (Except.error e) => some (Except.error e)
      | some (Except.ok (t0, o0)) =>
        let tens1 := tens.set p0 t0
        let orders1 := orders.set p0 o0
        if p1 < tens1.length ∧ p1 < orders1.length then
          match trace_check (tens1.getD p1 ⟨[], []⟩) (orders1.getD p1 []) with
          | none => none
          | some (Except.error e) => some (Except.error e)
          | some (Except.ok (t1, o1)) =>
            let tens2 := tens1.set p1 t1
            let orders2 := orders1.set p1 o1
            let axes := order_to_index orders2 (p0, p1)
            match tensor_dot (tens2.getD p0 ⟨[], []⟩) (tens2.getD p1 ⟨[], []⟩) axes with
            | none => none
            | some (Except.error e) => some (Except.error e)
            | some (Except.ok contraction) =>
              let tens3 := (tens2.set p0 contraction).eraseIdx p1
              match order_reformat orders2 (p0, p1) with
              | none => none
              | some orders3 => contract_loop rest tens3 orders3
        else none
    else none

/-- Embedding of `contract` (src/tencon.rs): validate the labels, normalize
tensors and label orders, generate the greedy plan from the normalized data,
and execute it. -/
def contract (tensors : List Tensor) (contraction_order : List (List Int)) :
    Option (Except String Tensor) :=
  match indices_validation contraction_order with
  | Except.error e => some (Except.error e)
  | Except.ok _ =>
    match prepare_contraction_data tensors contraction_order with
    | none => none
    | some (ten_list, cnt_order) =>
      match contract_map ten_list cnt_order with
      | none => none
      | some plan => contract_loop plan ten_list cnt_order

section ValidationProof

theorem mem_dedupFirstAux {v : Int} {l : List Int} : ∀ {seen : List Int},
    (v ∈ dedupFirstAux seen l ↔ v ∈ l ∧ v ∉ seen) := by
  induction l with
  | nil => intro seen; simp [dedupFirstAux]
  | cons x xs ih =>
    intro seen
    simp only [dedupFirstAux]
    by_cases hx : x ∈ seen
    · rw [if_pos hx, ih]
      constructor
      · rintro ⟨hv, hns⟩
        exact ⟨List.mem_cons_of_mem _ hv, hns⟩
      · rintro ⟨hv, hns⟩
        rcases List.mem_cons.mp hv with rfl | hv'
        · exact absurd hx hns
        · exact ⟨hv', hns⟩
    · rw [if_neg hx]
      simp only [List.mem_cons, ih, List.mem_append, List.mem_singleton]
      constructor
      · rintro (rfl | ⟨hv, hns⟩)
        · exact ⟨Or.inl rfl, hx⟩
        · exact ⟨Or.inr hv, fun hs => hns (Or.inl hs)⟩
      · rintro ⟨rfl | hv, hns⟩
        · exact Or.inl rfl
        · by_cases hvx : v = x
          · exact Or.inl hvx
          · refine Or.inr ⟨hv, ?_⟩
            rintro (hs | hs)
            · exact hns hs
            · rcases hs with rfl | hs
              · exact hvx rfl
              · cases hs

theorem mem_dedupFirst {v : Int} {l : List Int} : v ∈ dedupFirst l ↔ v ∈ l := by
  unfold dedupFirst
  rw [mem_dedupFirstAux]
  simp

theorem labelBad_iff {order : List (List Int)} {k : Int} :
    labelBad order k = true
      ↔ ((0 < k ∧ order.flatten.count k ≠ 2) ∨ (k < 0 ∧ 1 < order.flatten.count k)) := by
  simp [labelBad]

/-- Claim C4: `indices_validation` fails exactly when some positive label
does not occur exactly twice or some negative label occurs more than once
(counting across all tensors), and on that failure `contract` returns the
error without touching any tensor (the result is the same for every tensor
list). -/
theorem indices_validation_spec (order : List (List Int)) :
    ((∃ e, indices_validation order = Except.error e)
      ↔ ∃ k ∈ order.flatten,
          ((0 < k ∧ order.flatten.count k ≠ 2) ∨ (k < 0 ∧ 1 < order.flatten.count k)))
    ∧ ∀ (tensors : List Tensor) (e : String),
        indices_validation order = Except.error e →
        contract tensors order = some (Except.error e) := by
  constructor
  · unfold indices_validation
    cases hf : (dedupFirst order.flatten).find? (labelBad order) with
    | none =>
      simp only []
      constructor
      · rintro ⟨e, he⟩
        cases he
      · rintro ⟨k, hk, hbad⟩
        have hmem : k ∈ dedupFirst order.flatten := mem_dedupFirst.mpr hk
        have := List.find?_eq_none.mp hf k hmem
        exact absurd (labelBad_iff.mpr hbad) this
    | some k =>
      simp only []
      constructor
      · intro _
        refine ⟨k, ?_, ?_⟩
        · exact mem_dedupFirst.mp (List.mem_of_find?_eq_some hf)
        · exact labelBad_iff.mp (List.find?_some hf)
      · intro _
        by_cases hk : 0 < k
        · exact ⟨_, by rw [if_pos hk]⟩
        · exact ⟨_, by rw [if_neg hk]⟩
  · intro tensors e he
    unfold contract
    rw [he]

end ValidationProof

/-- Witness for C4 at a concrete invalid input (label 1 occurs once). -/
theorem indices_validation_spec_witness :
    ∃ e, indices_validation [[1]] = Except.error e
      ∧ contract [] [[1]] = some (Except.error e) := by
  obtain ⟨e, he⟩ := (indices_validation_spec [[1]]).1.mpr (by decide)
  exact ⟨e, he, (indices_validation_spec [[1]]).2 [] e he⟩

/-- The regression tensor of shape `[2,3,2]` filled with `0..12` (row-major),
from tests/tencon.rs. -/
def regA : Tensor := ⟨[2, 3, 2], (List.range 12).map (fun n => (n : ℚ))⟩

/-- The regression tensor of shape `[3,3,3,3]` filled with `0..81`. -/
def regB : Tensor := ⟨[3, 3, 3, 3], (List.range 81).map (fun n => (n : ℚ))⟩

/-- The regression label orders of tests/tencon.rs. -/
def regOrders : List (List Int) := [[-1, 1, 2], [2, 3, -2], [1, 3, -3, -4]]

set_option maxRecDepth 2500 in
/-- Claim C1: on the regression input, `contract` returns `Ok` with a tensor
of shape `[2,2,3,3]`, and the internally generated plan (the planner applied
to the normalized data, exactly as `contract` computes it) is the fixed
two-step sequence `[(1,0), (1,0)]`; both results equal explicit constants,
so they are identical on every invocation. -/
theorem contract_regression :
    (contract [regA, regA, regB] regOrders).map (Except.map Tensor.shape)
      = some (Except.ok [2, 2, 3, 3])
    ∧ (prepare_contraction_data [regA, regA, regB] regOrders).bind
      (fun pr => contract_map pr.1 pr.2) = some [(1, 0), (1, 0)] := by
  with_unfolding_all decide

set_option maxRecDepth 2500 in
/-- Claim C5 (code evaluated at the failing input): on the repository's own
`test_contract_map` input, the planner returns `[(1,0), (1,0)]` — on tied
row sums `max_by` keeps the LAST index — while tests/tencon.rs expects
`[[0,1], [0,1]]` and the doc comment of `select_best_nodes` promises the
first encountered maximum. -/
theorem contract_map_regression_last_tie :
    contract_map [regA, regA, regB] regOrders = some [(1, 0), (1, 0)] := by
  with_unfolding_all decide

/-- Tensor of shape `[2]` used in several concrete counterexamples. -/
def pairT : Tensor := ⟨[2], [1, 2]⟩

/-- Counterexample to C6: on a valid input the public `contract_map` panics
(`Vec::remove` out of range after self-pairing a slot), while the plan
`contract` generates internally — `contract_map` on the prepared data — is
`[(1,0)]` and `contract` itself succeeds with an outer-product of shape
`[2,2]`. -/
theorem contract_map_raw_ne_internal_ce :
    indices_validation [[-1], [-2]] = Except.ok ()
    ∧ contract_map [pairT, pairT] [[-1], [-2]] = none
    ∧ (prepare_contraction_data [pairT, pairT] [[-1], [-2]]).bind
        (fun pr => contract_map pr.1 pr.2) = some [(1, 0)]
    ∧ (contract [pairT, pairT] [[-1], [-2]]).map (Except.map Tensor.shape)
        = some (Except.ok [2, 2]) := by
  with_unfolding_all decide

/-- Claim C6 as amended: `contract_map` applies no normalization, so on some
valid inputs its result on the raw arguments differs from the internally
executed plan, which is `contract_map` of `prepare_contraction_data`'s
output. -/
theorem contract_map_raw_ne_internal :
    ∃ (tensors : List Tensor) (orders : List (List Int)),
      indices_validation orders = Except.ok ()
      ∧ contract_map tensors orders
        ≠ (prepare_contraction_data tensors orders).bind
            (fun pr => contract_map pr.1 pr.2) := by
  refine ⟨[⟨[2], [1, 2]⟩, ⟨[2], [1, 2]⟩], [[-1], [-2]], ?_, ?_⟩
  · decide
  · with_unfolding_all decide

/-- Counterexample to C7: after normalization of the valid input with label
orders `[[1], [-1], [1]]`, tensors 0 and 1 share no label at all (the
synthetic labels `2` and `3` differ, and no original label is shared). -/
theorem prepare_pair_no_shared_label_ce :
    indices_validation [[1], [-1], [1]] = Except.ok ()
    ∧ (prepare_contraction_data [pairT, pairT, pairT] [[1], [-1], [1]]).map
        (fun pr => (pr.2.getD 0 []).filter (fun v => (pr.2.getD 1 []).contains v))
      = some [] := by
  decide

/-- Counterexample to C2 as stated: duplicate axis positions in one half of
the axis list pass the size checks but make `permuted_axes` panic, so
`tensor_dot` does not return `Ok`. -/
theorem tensor_dot_dup_axis_panics :
    tensor_dot ⟨[2, 3], [0, 1, 2, 3, 4, 5]⟩ ⟨[2, 2], [0, 1, 2, 3]⟩ [0, 0, 0, 1] = none := by
  decide

/-- Witness for C2 (amended): the spec's own example, `[2,3] · [3,2,2]` over
axis pair `(1,0)`, evaluated through the theorem, with the reference tensor
computed to the spec's flattened values `20,23,26,29,56,68,80,92`. -/
theorem tensor_dot_einsum_witness :
    tensor_dot ⟨[2, 3], [0, 1, 2, 3, 4, 5]⟩
        ⟨[3, 2, 2], [0, 1, 2, 3, 4, 5, 6, 7, 8, 9, 10, 11]⟩ ([1] ++ [0])
      = some (Except.ok (einsumTensor ⟨[2, 3], [0, 1, 2, 3, 4, 5]⟩
          ⟨[3, 2, 2], [0, 1, 2, 3, 4, 5, 6, 7, 8, 9, 10, 11]⟩ [1] [0]))
    ∧ einsumTensor ⟨[2, 3], [0, 1, 2, 3, 4, 5]⟩
          ⟨[3, 2, 2], [0, 1, 2, 3, 4, 5, 6, 7, 8, 9, 10, 11]⟩ [1] [0]
      = ⟨[2, 2, 2], [20, 23, 26, 29, 56, 68, 80, 92]⟩ := by
  constructor
  · exact tensor_dot_einsum _ _ [1] [0] rfl (by decide) (by decide) (by decide) (by decide)
      (List.Forall₂.cons (by decide) List.Forall₂.nil)
  · with_unfolding_all decide

/-- Witness for C3: the spec's example, the `[2,2,2,2]` tensor filled with
`0..15` traced over axes `(1,3)`, giving shape `[2,2]` and values
`[5,9,21,25]`. -/
theorem trace_diag_witness :
    trace ⟨[2, 2, 2, 2], (List.range 16).map (fun n => (n : ℚ))⟩ [1, 3]
      = some (Except.ok (traceRef ⟨[2, 2, 2, 2], (List.range 16).map (fun n => (n : ℚ))⟩ 1 3))
    ∧ traceRef ⟨[2, 2, 2, 2], (List.range 16).map (fun n => (n : ℚ))⟩ 1 3
      = ⟨[2, 2], [5, 9, 21, 25]⟩ := by
  constructor
  · exact trace_diag _ 1 3 (by decide) (by decide) (by decide) (by decide)
  · with_unfolding_all decide

/-- Witness for C9: axis position 5 on a rank-1 tensor panics. -/
theorem trace_oob_panics_witness : trace ⟨[2], [1, 2]⟩ [0, 5] = none :=
  trace_oob_panics ⟨[2], [1, 2]⟩ [0, 5] rfl (by decide)

/-- Counterexample to C8 as stated: with the two interleaved duplicate pairs
`[1,2,1,2]` on one tensor (a valid label configuration), `trace_check`
computes all positions up front; after the first pair is traced away the
second pair's recorded positions are stale and out of range for the shrunken
tensor, and `contract` panics instead of tracing both pairs away. -/
theorem trace_check_stale_positions_ce :
    indices_validation [[1, 2, 1, 2], [-1]] = Except.ok ()
    ∧ contract [⟨[2, 2, 2, 2], (List.range 16).map (fun n => (n : ℚ))⟩, pairT]
        [[1, 2, 1, 2], [-1]] = none := by
  with_unfolding_all decide

/-- Claim C7 as amended: after normalization, every tensor except the last
shares its fresh synthetic label (`maxIdx + i + 1`, on a size-1 axis) with
the LAST tensor's label order; nothing guarantees a shared label between two
non-last tensors. -/
theorem prepare_shared_with_last (tensors : List Tensor) (orders : List (List Int))
    (pt : List Tensor) (po : List (List Int))
    (hp : prepare_contraction_data tensors orders = some (pt, po))
    (i : Nat) (hi : i + 1 < po.length) :
    (maxIdx orders + i + 1) ∈ po.getD i []
    ∧ (maxIdx orders + i + 1) ∈ po.getD (po.length - 1) [] := by
  unfold prepare_contraction_data at hp
  cases h1 : tensors.getLast? with
  | none =>
    rw [h1] at hp
    cases h2 : orders.getLast? <;> rw [h2] at hp <;> cases hp
  | some tl =>
    rw [h1] at hp
    cases h2 : orders.getLast? with
    | none => rw [h2] at hp; cases hp
    | some ol =>
    rw [h2] at hp
    simp only [Option.some.injEq, Prod.mk.injEq] at hp
    obtain ⟨-, hpo⟩ := hp
    subst hpo
    have hzlen : (((List.range (orders.length - 1)).zip
        (orders.take (orders.length - 1))).map
          (fun p => p.2 ++ [maxIdx orders + (p.1 : Int) + 1])).length
        = orders.length - 1 := by
      simp [List.length_zip, List.length_take]
    have hpolen : (((List.range (orders.length - 1)).zip
        (orders.take (orders.length - 1))).map
          (fun p => p.2 ++ [maxIdx orders + (p.1 : Int) + 1])
        ++ [ol ++ (List.range (orders.length - 1)).map
              (fun (j : Nat) => maxIdx orders + (j : Int) + 1)]).length
        = (orders.length - 1) + 1 := by
      simp [hzlen]
    rw [hpolen] at hi
    have hik : i < orders.length - 1 := by omega
    constructor
    · rw [List.getD_append _ _ _ _ (by rw [hzlen]; exact hik)]
      rw [List.getD_eq_getElem _ _ (by rw [hzlen]; exact hik)]
      rw [List.getElem_map, List.getElem_zip]
      simp only [List.getElem_range]
      exact List.mem_append_right _ (List.mem_singleton.mpr rfl)
    · rw [hpolen]
      have : (orders.length - 1) + 1 - 1 = orders.length - 1 := by omega
      rw [this]
      rw [List.getD_append_right _ _ _ _ (by rw [hzlen])]
      rw [hzlen, Nat.sub_self]
      simp only [List.getD_cons_zero]
      refine List.mem_append_right _ ?_
      exact List.mem_map.mpr ⟨i, List.mem_range.mpr hik, rfl⟩

/-- Witness for the amended C7 at the three-tensor counterexample input:
tensor 0's synthetic label 2 is shared with the last tensor's order. -/
theorem prepare_shared_with_last_witness :
    (maxIdx [[1], [-1], [1]] + 0 + 1) ∈ ([[1, 2], [-1, 3], [1, 2, 3]] : List (List Int)).getD 0 []
    ∧ (maxIdx [[1], [-1], [1]] + 0 + 1)
        ∈ ([[1, 2], [-1, 3], [1, 2, 3]] : List (List Int)).getD
            (([[1, 2], [-1, 3], [1, 2, 3]] : List (List Int)).length - 1) [] :=
  prepare_shared_with_last [pairT, pairT, pairT] [[1], [-1], [1]]
    [⟨[2, 1], [1, 2]⟩, ⟨[2, 1], [1, 2]⟩, ⟨[2, 1, 1], [1, 2]⟩] [[1, 2], [-1, 3], [1, 2, 3]]
    (by with_unfolding_all decide) 0 (by decide)

section MergeTraceInvariant

theorem nodup_dedupFirstAux (l : List Int) : ∀ seen, (dedupFirstAux seen l).Nodup := by
  induction l with
  | nil => intro seen; exact List.Pairwise.nil
  | cons x xs ih =>
    intro seen
    simp only [dedupFirstAux]
    split
    · exact ih seen
    · refine List.nodup_cons.mpr ⟨?_, ih (seen ++ [x])⟩
      intro hx
      exact (mem_dedupFirstAux.mp hx).2 (List.mem_append_right _ (List.mem_singleton_self x))

theorem positionsOf_length (order : List Int) (k : Int) :
    (positionsOf order k).length = order.count k := by
  unfold positionsOf
  rw [← List.countP_eq_length_filter]
  induction order with
  | nil => rfl
  | cons x xs ih =>
    rw [List.length_cons, List.range_succ_eq_map, List.countP_cons, List.countP_map,
        List.count_cons]
    simp only [Function.comp_def, List.getD_cons_succ, List.getD_cons_zero]
    rw [ih]

theorem order_merge_fold_inv (l : List Int) :
    ∀ st : List Int × List Int × List Int, st.1 = st.2.1 → st.1.Nodup →
    (l.foldl order_merge_step st).1 = (l.foldl order_merge_step st).2.1
    ∧ (l.foldl order_merge_step st).1.Nodup := by
  induction l with
  | nil => intro st h1 h2; exact ⟨h1, h2⟩
  | cons v vs ih =>
    intro st h1 h2
    rw [List.foldl_cons]
    by_cases hv : v ∈ st.1
    · simp only [order_merge_step, if_pos hv]
      exact ih _ h1 h2
    · simp only [order_merge_step, if_neg hv]
      refine ih _ (by rw [h1]) ?_
      refine List.Nodup.append h2 (List.nodup_singleton v) ?_
      intro x hx hx'
      rw [List.mem_singleton] at hx'
      subst hx'
      exact hv hx

theorem order_merge_nodup (c : List Int) : (order_merge c).Nodup := by
  have h := order_merge_fold_inv c ([], [], []) rfl List.nodup_nil
  simp only [order_merge]
  exact List.Nodup.filter _ (h.1 ▸ h.2)

theorem trace_check_step_id {order : List Int} {k : Int}
    (h : ¬ (positionsOf order k).length = 2)
    (acc : Option (Except String (Tensor × List Int))) :
    trace_check_step order acc k = acc := by
  cases acc with
  | none => rfl
  | some x =>
    cases x with
    | error e => rfl
    | ok p =>
      cases p with
      | mk t ord =>
        simp only [trace_check_step]
        rw [if_neg h]

theorem trace_check_fold_id {order : List Int} : ∀ keys : List Int,
    (∀ k ∈ keys, ¬ (positionsOf order k).length = 2) →
    ∀ acc, keys.foldl (trace_check_step order) acc = acc := by
  intro keys
  induction keys with
  | nil => intro _ _; rfl
  | cons k ks ih =>
    intro h acc
    rw [List.foldl_cons, trace_check_step_id (h k (List.mem_cons_self k ks)) acc]
    exact ih (fun x hx => h x (List.mem_cons_of_mem k hx)) acc

end MergeTraceInvariant

/-- **C8** (amended: the positions a trace uses are recorded up front from
the original, pre-loop label order, and are not recomputed after an earlier
trace shrinks the tensor).  After every merge step the merged label order
contains no duplicate labels; and for a tensor whose label order contains
exactly one duplicated label `l` (every other label occurring once), the
duplicate pair is traced away by `trace_check` before any cross-tensor dot,
both recorded positions of `l` being removed from the label order. -/
theorem order_merge_nodup_trace_check_dup (t : Tensor) (order : List Int) (l : Int)
    (hcnt : order.count l = 2)
    (hothers : ∀ k ∈ order, k ≠ l → order.count k = 1) :
    (∀ a b : List Int, (order_merge (a ++ b)).Nodup) ∧
    trace_check t order =
      (match trace t (positionsOf order l) with
       | none => none
       | some (Except.error e) => some (Except.error e)
       | some (Except.ok t2) =>
         match removeAtDesc order (positionsOf order l) with
         | none => none
         | some ord2 => some (Except.ok (t2, ord2))) := by
  constructor
  · intro a b
    exact order_merge_nodup (a ++ b)
  · have hmeml : l ∈ order := List.count_pos_iff.mp (by omega)
    have hmemk : l ∈ dedupFirst order := mem_dedupFirst.mpr hmeml
    obtain ⟨s, u, hsu⟩ := List.append_of_mem hmemk
    have hnd : (dedupFirst order).Nodup := nodup_dedupFirstAux order []
    rw [hsu] at hnd
    obtain ⟨hnds, hndlu, hdisj⟩ := List.nodup_append.mp hnd
    have hlu : l ∉ u := (List.nodup_cons.mp hndlu).1
    have hls : l ∉ s := fun hin => hdisj hin (List.mem_cons_self l u)
    have hkey : ∀ k ∈ s, ¬ (positionsOf order k).length = 2 := by
      intro k hk
      rw [positionsOf_length]
      have hkd : k ∈ dedupFirst order := by
        rw [hsu]; exact List.mem_append_left _ hk
      have hkl : k ≠ l := fun he => hls (he ▸ hk)
      rw [hothers k (mem_dedupFirst.mp hkd) hkl]
      omega
    have hkey2 : ∀ k ∈ u, ¬ (positionsOf order k).length = 2 := by
      intro k hk
      rw [positionsOf_length]
      have hkd : k ∈ dedupFirst order := by
        rw [hsu]; exact List.mem_append_right _ (List.mem_cons_of_mem l hk)
      have hkl : k ≠ l := fun he => hlu (he ▸ hk)
      rw [hothers k (mem_dedupFirst.mp hkd) hkl]
      omega
    unfold trace_check
    rw [hsu, List.foldl_append, trace_check_fold_id s hkey _, List.foldl_cons,
        trace_check_fold_id u hkey2 _]
    simp only [trace_check_step]
    rw [if_pos (by rw [positionsOf_length]; exact hcnt)]

/-- Witness for the amended C8: a merge of `[1, 2]` and `[2, 3]` yields a
duplicate-free order, and the tensor `0..11` of shape `[2, 3, 2]` with label
order `[9, -1, 9]` has its duplicate label 9 traced away (positions 0 and 2),
leaving the tensor `[7, 11, 15]` of shape `[3]` with label order `[-1]`. -/
theorem order_merge_nodup_trace_check_dup_witness :
    (order_merge ([1, 2] ++ [2, 3])).Nodup ∧
    trace_check ⟨[2, 3, 2], (List.range 12).map (fun n => (n : ℚ))⟩ [9, -1, 9]
      = some (Except.ok (⟨[3], [7, 11, 15]⟩, [-1])) := by
  have h := order_merge_nodup_trace_check_dup
    ⟨[2, 3, 2], (List.range 12).map (fun n => (n : ℚ))⟩ [9, -1, 9] 9
    (by decide) (by decide)
  refine ⟨h.1 [1, 2] [2, 3], ?_⟩
  rw [h.2]
  with_unfolding_all decide

section FinalOrderPanic

theorem permOK_false_of_len {p : List Nat} {n : Nat} (h : ¬ p.length = n) :
    permOK p n = false := by
  unfold permOK
  have h1 : (p.length == n) = false := by simp [h]
  rw [h1, Bool.false_and]

theorem permOK_false_of_dup {p : List Nat} {n a : Nat} (ha : a < n)
    (hc : 2 ≤ p.count a) : permOK p n = false := by
  unfold permOK
  have h1 : ((List.range n).all (fun x => p.count x == 1)) = false := by
    rw [List.all_eq_false]
    refine ⟨a, List.mem_range.mpr ha, ?_⟩
    simp only [beq_iff_eq]
    omega
  rw [h1, Bool.and_false]

end FinalOrderPanic

/-- **C10**: a single-tensor input whose label order contains a positive
label twice passes validation, the plan for one tensor is empty (so
`trace_check` is never invoked on any planned pair), and `contract` panics
in `final_order` — the duplicated label produces a duplicated axis in the
permutation — instead of returning a traced tensor or an error. -/
theorem contract_single_dup_panics (t : Tensor) (o : List Int) (l : Int)
    (hl : 0 < l) (hcnt : o.count l = 2)
    (hvalid : indices_validation [o] = Except.ok ()) :
    contract [t] [o] = none ∧ contract_map [t] [o] = some [] := by
  refine ⟨?_, rfl⟩
  have hprep : prepare_contraction_data [t] [o]
      = some ([(⟨t.shape ++ [], t.data⟩ : Tensor)], [o ++ []]) := rfl
  have hmap : contract_map [(⟨t.shape ++ [], t.data⟩ : Tensor)] [o ++ []] = some [] := rfl
  have hfo : final_order (⟨t.shape ++ [], t.data⟩ : Tensor) [o ++ []]
      = permute (⟨t.shape ++ [], t.data⟩ : Tensor)
          ((List.insertionSort (fun a b => b ≤ a) (o ++ [])).map
            (fun x => (o ++ []).indexOf x)) := rfl
  have hnone : permute (⟨t.shape ++ [], t.data⟩ : Tensor)
      ((List.insertionSort (fun a b => b ≤ a) (o ++ [])).map
        (fun x => (o ++ []).indexOf x)) = none := by
    simp only [List.append_nil]
    have hpf : permOK ((List.insertionSort (fun a b => b ≤ a) o).map
        (fun x => o.indexOf x)) (Tensor.rank ⟨t.shape, t.data⟩) = false := by
      by_cases hlen : ((List.insertionSort (fun a b => b ≤ a) o).map
          (fun x => o.indexOf x)).length = (Tensor.rank ⟨t.shape, t.data⟩)
      · have hmem : l ∈ o := List.count_pos_iff.mp (by omega)
        have hidx : o.indexOf l < o.length := List.indexOf_lt_length.mpr hmem
        have hlen2 : ((List.insertionSort (fun a b => b ≤ a) o).map
            (fun x => o.indexOf x)).length = o.length := by
          rw [List.length_map, (List.perm_insertionSort _ o).length_eq]
        have ha : o.indexOf l < Tensor.rank ⟨t.shape, t.data⟩ := by omega
        have hc2 : 2 ≤ ((List.insertionSort (fun a b => b ≤ a) o).map
            (fun x => o.indexOf x)).count (o.indexOf l) := by
          have e1 : ((List.insertionSort (fun a b => b ≤ a) o).map
              (fun x => o.indexOf x)).count (o.indexOf l)
              = List.countP (fun x => o.indexOf x == o.indexOf l)
                  (List.insertionSort (fun a b => b ≤ a) o) := by
            rw [List.count_eq_countP, List.countP_map]
            rfl
          have e2 : List.countP (fun x => x == l)
              (List.insertionSort (fun a b => b ≤ a) o) = 2 := by
            rw [← List.count_eq_countP, (List.perm_insertionSort _ o).count_eq]
            exact hcnt
          have e3 : List.countP (fun x => x == l)
                (List.insertionSort (fun a b => b ≤ a) o)
              ≤ List.countP (fun x => o.indexOf x == o.indexOf l)
                (List.insertionSort (fun a b => b ≤ a) o) := by
            apply List.countP_mono_left
            intro x _ hx
            have hxl : x = l := by simpa using hx
            subst hxl
            simp
          rw [e1]
          omega
        exact permOK_false_of_dup ha hc2
      · exact permOK_false_of_len hlen
    simp [permute, hpf]
  simp only [contract, hvalid, hprep, hmap, contract_loop, hfo, hnone]

/-- Witness for C10 at the tensor `[1, 2, 3, 4]` of shape `[2, 2]` with
label order `[1, 1]`: validation passes, the plan is empty and `contract`
panics. -/
theorem contract_single_dup_panics_witness :
    contract [(⟨[2, 2], [1, 2, 3, 4]⟩ : Tensor)] [[1, 1]] = none
    ∧ contract_map [(⟨[2, 2], [1, 2, 3, 4]⟩ : Tensor)] [[1, 1]] = some [] :=
  contract_single_dup_panics ⟨[2, 2], [1, 2, 3, 4]⟩ [1, 1] 1 (by decide) (by decide)
    (by decide)
